import Mathlib

/-!
Verification of the ordered pattern-classification engine of
group_tasks.py (get_model_series / group_tasks_by_series).

The Python code compiles 28 regular expressions and scans them in a fixed
order; the first pattern found anywhere in the task name decides the
category.  We embed the fragment of Python regular-expression semantics
these 28 patterns use (literals, character classes, greedy one-or-more of
a character class, fixed repetition, alternation, lookahead, fixed-width
lookbehind) as a backtracking matcher with Python priority order:
leftmost start position first, and at each position the backtracking
order of the pattern (greedy repetition tries longer matches first,
alternation tries the left branch first).
-/

namespace GroupTasks

/-- The regular-expression fragment used by the 28 patterns of
get_model_series. -/
inductive Regex where
  | eps : Regex
  | cls : (Char → Bool) → Regex
  | seq : Regex → Regex → Regex
  | alt : Regex → Regex → Regex
  | plusCls : (Char → Bool) → Regex
  | lookahead : Regex → Regex
  | lookbehind : List (Char → Bool) → Regex

/-- Checks that the reversed left context starts with characters
satisfying the given classes (used for fixed-width lookbehind; the class
list is already reversed). -/
def checkCtxRev : List (Char → Bool) → List Char → Bool
  | [], _ => true
  | _ :: _, [] => false
  | p :: ps, c :: cs => p c && checkCtxRev ps cs

/-- Backtracking matcher.  mtch r pre s matches r at the current
position, where pre is the reversed left context (everything before the
current position) and s the remaining input.  It returns the list of
possible (new reversed context, remaining input) outcomes in Python
priority order; the empty list means no match. -/
def mtch : Regex → List Char → List Char → List (List Char × List Char)
  | Regex.eps, pre, s => [(pre, s)]
  | Regex.cls p, pre, s =>
      match s with
      | [] => []
      | c :: rest => if p c then [(c :: pre, rest)] else []
  | Regex.seq a b, pre, s =>
      (mtch a pre s).flatMap (fun pr => mtch b pr.1 pr.2)
  | Regex.alt a b, pre, s => mtch a pre s ++ mtch b pre s
  | Regex.plusCls p, pre, s =>
      let n := (s.takeWhile p).length
      (List.range n).map
        (fun i => ((s.take (n - i)).reverse ++ pre, s.drop (n - i)))
  | Regex.lookahead a, pre, s =>
      if (mtch a pre s).isEmpty then [] else [(pre, s)]
  | Regex.lookbehind ps, pre, s =>
      if checkCtxRev ps.reverse pre then [(pre, s)] else []

/-- re.search: try each start position from left to right; at the first
position where the pattern matches, return the matched substring
(group 0, the characters consumed by the highest-priority match). -/
def searchFrom (r : Regex) (pre : List Char) : List Char → Option (List Char)
  | [] =>
      match mtch r pre [] with
      | (pre', _) :: _ => some ((List.take (pre'.length - pre.length) pre').reverse)
      | [] => none
  | c :: rest =>
      match mtch r pre (c :: rest) with
      | (pre', _) :: _ => some ((List.take (pre'.length - pre.length) pre').reverse)
      | [] => searchFrom r (c :: pre) rest

/-- A compiled pattern keeps the source text (re.compile(...).pattern)
next to its parsed form, as Python pattern objects do. -/
structure CompiledPattern where
  pattern : String
  re : Regex

/-- pattern.search(task_name): none when the pattern does not occur,
some of the matched substring otherwise. -/
def reSearch (cp : CompiledPattern) (s : String) : Option String :=
  (searchFrom cp.re [] s.data).map (fun l => String.mk l)

/-- Character class helpers for the pattern table. -/
def digit (c : Char) : Bool := c.isDigit

def dashDigit (c : Char) : Bool := c.isDigit || c == '-'

def dotDashDigit (c : Char) : Bool := c.isDigit || c == '.' || c == '-'

def usDash (c : Char) : Bool := c == '_' || c == '-'

def chB (c : Char) : Bool := c == 'b'

def chC (c : Char) : Bool := c == 'c'

def spaceChar (c : Char) : Bool :=
  c == ' ' || c == '\t' || c == '\n' || c == '\r' || c == '\x0b' || c == '\x0c'

/-- Literal string as a regex. -/
def rlit (s : String) : Regex :=
  s.data.foldr (fun c r => Regex.seq (Regex.cls (fun x => x == c)) r) Regex.eps

/-- Exact repetition r{n}. -/
def repN : Regex → Nat → Regex
  | _, 0 => Regex.eps
  | r, n + 1 => Regex.seq r (repN r n)

/-- The 28 (compiled pattern, match_type) rules of get_model_series, in
source order. -/
def patterns : List (CompiledPattern × String) :=
  [ (⟨"yx_gzy_jj", rlit "yx_gzy_jj"⟩, "gzy"),
    (⟨"xm_jj", rlit "xm_jj"⟩, "xm_jj"),
    (⟨"jj_A\\d+", Regex.seq (rlit "jj_A") (Regex.plusCls digit)⟩, "jj_A"),
    (⟨"xm_jj_Y\\d+_072[5-7]",
      Regex.seq (rlit "xm_jj_Y") (Regex.seq (Regex.plusCls digit)
        (Regex.seq (rlit "_072")
          (Regex.cls (fun c => decide ('5' ≤ c) && decide (c ≤ '7')))))⟩, "jj_Y"),
    (⟨"xm_jj_jy_07(16|24)",
      Regex.seq (rlit "xm_jj_jy_07") (Regex.alt (rlit "16") (rlit "24"))⟩, "jj_jy"),
    (⟨"lt_LKltjja[\\d-]+", Regex.seq (rlit "lt_LKltjja") (Regex.plusCls dashDigit)⟩, "full_match"),
    (⟨"lt_LXjja[\\d-]+", Regex.seq (rlit "lt_LXjja") (Regex.plusCls dashDigit)⟩, "full_match"),
    (⟨"lt_LKjja[\\d-]+", Regex.seq (rlit "lt_LKjja") (Regex.plusCls dashDigit)⟩, "full_match"),
    (⟨"lt_jja[\\d.-]+", Regex.seq (rlit "lt_jja") (Regex.plusCls dotDashDigit)⟩, "full_match"),
    (⟨"lt_ltjja[\\d-]+", Regex.seq (rlit "lt_ltjja") (Regex.plusCls dashDigit)⟩, "full_match"),
    (⟨"LKXjja[\\d-]+", Regex.seq (rlit "LKXjja") (Regex.plusCls dashDigit)⟩, "full_match"),
    (⟨"LKjja[\\d-]+", Regex.seq (rlit "LKjja") (Regex.plusCls dashDigit)⟩, "full_match"),
    (⟨"Lk12a20-1", rlit "Lk12a20-1"⟩, "full_match"),
    (⟨"jja[\\d-]+", Regex.seq (rlit "jja") (Regex.plusCls dashDigit)⟩, "full_match"),
    (⟨"LXda\\d+", Regex.seq (rlit "LXda") (Regex.plusCls digit)⟩, "full_match"),
    (⟨"LXd\\d+", Regex.seq (rlit "LXd") (Regex.plusCls digit)⟩, "full_match"),
    (⟨"x\\d+", Regex.seq (rlit "x") (Regex.plusCls digit)⟩, "full_match"),
    (⟨"u\\d+", Regex.seq (rlit "u") (Regex.plusCls digit)⟩, "full_match"),
    (⟨"rt[_-]dj", Regex.seq (rlit "rt") (Regex.seq (Regex.cls usDash) (rlit "dj"))⟩, "rt_dj"),
    (⟨"rz_dj", rlit "rz_dj"⟩, "static"),
    (⟨"rz[_-]bc", Regex.seq (rlit "rz") (Regex.seq (Regex.cls usDash) (rlit "bc"))⟩, "rz_bc"),
    (⟨"apbc\\d+", Regex.seq (rlit "apbc") (Regex.plusCls digit)⟩, "full_match"),
    (⟨"(?<=bc[_-])v\\d+",
      Regex.seq (Regex.lookbehind [chB, chC, usDash])
        (Regex.seq (rlit "v") (Regex.plusCls digit))⟩, "full_match"),
    (⟨"v20(?=[-_]|\\s)",
      Regex.seq (rlit "v20")
        (Regex.lookahead (Regex.alt (Regex.cls usDash) (Regex.cls spaceChar)))⟩, "v20"),
    (⟨"\\d\x7b4\x7d-bc", Regex.seq (repN (Regex.cls digit) 4) (rlit "-bc")⟩, "bc"),
    (⟨"bc0\\d+", Regex.seq (rlit "bc0") (Regex.plusCls digit)⟩, "full_match"),
    (⟨"rt_bc", rlit "rt_bc"⟩, "static"),
    (⟨"bc(?=_)", Regex.seq (rlit "bc") (Regex.lookahead (rlit "_"))⟩, "static") ]

/-- The value returned when a rule fires: the matched substring for
full_match, the pattern source text for static, the match_type string
itself otherwise. -/
def ruleValue (cp : CompiledPattern) (mt m : String) : String :=
  if mt = "full_match" then m
  else if mt = "static" then cp.pattern
  else mt

/-- The scanning loop of get_model_series over a rule list. -/
def find_series : List (CompiledPattern × String) → String → Option String
  | [], _ => none
  | (cp, mt) :: rest, t =>
      match reSearch cp t with
      | some m => some (ruleValue cp mt m)
      | none => find_series rest t

/-- get_model_series: first-match-wins scan of the fixed rule table,
none when no pattern is found. -/
def get_model_series (task_name : String) : Option String :=
  find_series patterns task_name

/-- The category a task name receives in group_tasks_by_series: the
series when get_model_series returns a truthy value, the sentinel
"Uncategorized" otherwise (Python falsy covers both None and ""). -/
def series_or_uncategorized (task_name : String) : String :=
  match get_model_series task_name with
  | some s => if s = "" then "Uncategorized" else s
  | none => "Uncategorized"

/-- A conservative syntactic check that a regex can only match by
consuming at least one character (lookarounds consume nothing). -/
def consumes : Regex → Bool
  | Regex.eps => false
  | Regex.cls _ => true
  | Regex.seq a b => consumes a || consumes b
  | Regex.alt a b => consumes a && consumes b
  | Regex.plusCls _ => true
  | Regex.lookahead _ => false
  | Regex.lookbehind _ => false

/-- Soundness side condition for one rule of the table: a full_match rule
consumes at least one character, a static rule has a nonempty pattern
source, and any custom match_type string is nonempty. -/
def ruleOK : CompiledPattern × String → Bool
  | (cp, mt) =>
      if mt = "full_match" then consumes cp.re
      else if mt = "static" then decide (cp.pattern ≠ "")
      else decide (mt ≠ "")

theorem find_series_cons_some (cp : CompiledPattern) (mt : String)
    (rest : List (CompiledPattern × String)) (t m : String)
    (h : reSearch cp t = some m) :
    find_series ((cp, mt) :: rest) t = some (ruleValue cp mt m) := by
  simp [find_series, h]

theorem find_series_cons_none (cp : CompiledPattern) (mt : String)
    (rest : List (CompiledPattern × String)) (t : String)
    (h : reSearch cp t = none) :
    find_series ((cp, mt) :: rest) t = find_series rest t := by
  simp [find_series, h]

theorem find_series_none_of_all (t : String) :
    ∀ ps : List (CompiledPattern × String),
      (∀ e ∈ ps, reSearch e.1 t = none) → find_series ps t = none := by
  intro ps
  induction ps with
  | nil => intro _; rfl
  | cons e rest ih =>
    intro h
    obtain ⟨cp, mt⟩ := e
    rw [find_series_cons_none cp mt rest t (h (cp, mt) (List.mem_cons_self _ _))]
    exact ih fun e he => h e (List.mem_cons_of_mem _ he)

theorem find_series_eq_first (t : String) :
    ∀ (ps : List (CompiledPattern × String)) (i : Nat) (hi : i < ps.length) (m : String),
      reSearch (ps.get ⟨i, hi⟩).1 t = some m →
      (∀ (k : Nat) (hk : k < i), reSearch (ps.get ⟨k, Nat.lt_trans hk hi⟩).1 t = none) →
      find_series ps t = some (ruleValue (ps.get ⟨i, hi⟩).1 (ps.get ⟨i, hi⟩).2 m) := by
  intro ps
  induction ps with
  | nil => intro i hi; exact absurd hi (by simp)
  | cons e rest ih =>
    intro i hi m hm hfirst
    obtain ⟨cp, mt⟩ := e
    cases i with
    | zero =>
      exact find_series_cons_some cp mt rest t m hm
    | succ n =>
      have h0 : reSearch cp t = none := hfirst 0 (Nat.succ_pos n)
      rw [find_series_cons_none cp mt rest t h0]
      exact ih n (Nat.lt_of_succ_lt_succ hi) m hm
        (fun k hk => hfirst (k + 1) (Nat.succ_lt_succ hk))

theorem find_series_take_first (t : String) :
    ∀ (ps : List (CompiledPattern × String)) (i : Nat) (hi : i < ps.length),
      (reSearch (ps.get ⟨i, hi⟩).1 t).isSome = true →
      (∀ (k : Nat) (hk : k < i), reSearch (ps.get ⟨k, Nat.lt_trans hk hi⟩).1 t = none) →
      find_series ps t = find_series (ps.take (i + 1)) t := by
  intro ps
  induction ps with
  | nil => intro i hi; exact absurd hi (by simp)
  | cons e rest ih =>
    intro i hi hm hfirst
    obtain ⟨cp, mt⟩ := e
    cases i with
    | zero =>
      obtain ⟨m, hm⟩ := Option.isSome_iff_exists.mp hm
      rw [List.take_succ_cons, find_series_cons_some cp mt rest t m hm,
        find_series_cons_some cp mt _ t m hm]
    | succ n =>
      have h0 : reSearch cp t = none := hfirst 0 (Nat.succ_pos n)
      simp only [List.get_cons_succ] at hm
      rw [List.take_succ_cons, find_series_cons_none cp mt rest t h0,
        find_series_cons_none cp mt _ t h0]
      exact ih n (Nat.lt_of_succ_lt_succ hi) hm
        (fun k hk => hfirst (k + 1) (Nat.succ_lt_succ hk))

theorem checkCtxRev_append (qs : List (Char → Bool)) :
    ∀ (ctx ext : List Char), checkCtxRev qs ctx = true →
      checkCtxRev qs (ctx ++ ext) = true := by
  induction qs with
  | nil => intro ctx ext _; rfl
  | cons q qs ih =>
    intro ctx ext h
    cases ctx with
    | nil => simp [checkCtxRev] at h
    | cons c cs =>
      simp only [checkCtxRev, Bool.and_eq_true] at h
      simp only [List.cons_append, checkCtxRev, Bool.and_eq_true]
      exact ⟨h.1, ih cs ext h.2⟩

/-- Extending the left context to the left never destroys a match:
every outcome of the matcher survives, with the same consumed characters
and the extended context appended. -/
theorem mtch_ctx_extend (ext : List Char) :
    ∀ (r : Regex) (ctx s : List Char) (pr : List Char × List Char),
      pr ∈ mtch r ctx s → (pr.1 ++ ext, pr.2) ∈ mtch r (ctx ++ ext) s := by
  intro r
  induction r with
  | eps =>
    intro ctx s pr h
    simp only [mtch, List.mem_singleton] at h
    simp [mtch, h]
  | cls p =>
    intro ctx s pr h
    cases s with
    | nil => simp [mtch] at h
    | cons c rest =>
      by_cases hp : p c
      · simp only [mtch, if_pos hp, List.mem_singleton] at h
        simp [mtch, if_pos hp, h]
      · simp [mtch, if_neg hp] at h
  | seq a b iha ihb =>
    intro ctx s pr h
    simp only [mtch, List.mem_flatMap] at h ⊢
    obtain ⟨q, hq, hpr⟩ := h
    exact ⟨(q.1 ++ ext, q.2), iha ctx s q hq, ihb q.1 q.2 pr hpr⟩
  | alt a b iha ihb =>
    intro ctx s pr h
    simp only [mtch, List.mem_append] at h ⊢
    cases h with
    | inl h => exact Or.inl (iha ctx s pr h)
    | inr h => exact Or.inr (ihb ctx s pr h)
  | plusCls p =>
    intro ctx s pr h
    simp only [mtch, List.mem_map, List.mem_range] at h ⊢
    obtain ⟨i, hi, hpr⟩ := h
    refine ⟨i, hi, ?_⟩
    rw [← hpr]
    simp [List.append_assoc]
  | lookahead a ih =>
    intro ctx s pr h
    by_cases he : (mtch a ctx s).isEmpty
    · simp [mtch, he] at h
    · simp only [mtch, he, if_neg, Bool.false_eq_true, not_false_eq_true,
        if_false, List.mem_singleton] at h
      have hne : mtch a ctx s ≠ [] := by
        intro hnil; rw [hnil] at he; exact he rfl
      obtain ⟨q, hq⟩ := List.exists_mem_of_ne_nil _ hne
      have h2 : (mtch a (ctx ++ ext) s).isEmpty = false := by
        have := ih ctx s q hq
        rcases hx : mtch a (ctx ++ ext) s with _ | _
        · rw [hx] at this; simp at this
        · rfl
      simp [mtch, h2, h]
  | lookbehind ps =>
    intro ctx s pr h
    by_cases hc : checkCtxRev ps.reverse ctx
    · simp only [mtch, if_pos hc, List.mem_singleton] at h
      simp [mtch, checkCtxRev_append ps.reverse ctx ext hc, h]
    · simp [mtch, hc] at h

theorem searchFrom_pos (r : Regex) (pre s pre' x : List Char)
    (l : List (List Char × List Char)) (hm : mtch r pre s = (pre', x) :: l) :
    searchFrom r pre s = some ((List.take (pre'.length - pre.length) pre').reverse) := by
  cases s with
  | nil => simp only [searchFrom]; rw [hm]
  | cons c rest => simp only [searchFrom]; rw [hm]

theorem searchFrom_step (r : Regex) (pre : List Char) (c : Char) (rest : List Char)
    (hm : mtch r pre (c :: rest) = []) :
    searchFrom r pre (c :: rest) = searchFrom r (c :: pre) rest := by
  simp only [searchFrom]
  rw [hm]

theorem searchFrom_nil_none (r : Regex) (pre : List Char)
    (hm : mtch r pre [] = []) : searchFrom r pre [] = none := by
  simp only [searchFrom]
  rw [hm]

/-- If the pattern matches at some position (after skipping the prefix u),
the left-to-right search starting before u succeeds. -/
theorem searchFrom_isSome_append (r : Regex) :
    ∀ (u v pre : List Char), mtch r (u.reverse ++ pre) v ≠ [] →
      (searchFrom r pre (u ++ v)).isSome = true := by
  intro u
  induction u with
  | nil =>
    intro v pre h
    rw [List.reverse_nil, List.nil_append] at h
    rcases hm : mtch r pre v with _ | ⟨⟨p1, p2⟩, l⟩
    · exact absurd hm h
    · rw [List.nil_append, searchFrom_pos r pre v p1 p2 l hm]
      rfl
  | cons c u ih =>
    intro v pre h
    have h' : mtch r (u.reverse ++ (c :: pre)) v ≠ [] := by
      have : (c :: u).reverse ++ pre = u.reverse ++ (c :: pre) := by
        simp [List.append_assoc]
      rwa [this] at h
    rw [List.cons_append]
    rcases hm : mtch r pre (c :: (u ++ v)) with _ | ⟨⟨p1, p2⟩, l⟩
    · rw [searchFrom_step r pre c (u ++ v) hm]
      exact ih v (c :: pre) h'
    · rw [searchFrom_pos r pre (c :: (u ++ v)) p1 p2 l hm]
      rfl

/-- Conversely, a successful search exhibits a split of the input at the
match position. -/
theorem searchFrom_isSome_split (r : Regex) :
    ∀ (s pre : List Char), (searchFrom r pre s).isSome = true →
      ∃ u v, s = u ++ v ∧ mtch r (u.reverse ++ pre) v ≠ [] := by
  intro s
  induction s with
  | nil =>
    intro pre h
    rcases hm : mtch r pre [] with _ | ⟨⟨p1, p2⟩, l⟩
    · rw [searchFrom_nil_none r pre hm] at h
      simp at h
    · exact ⟨[], [], rfl, by simp [hm]⟩
  | cons c rest ih =>
    intro pre h
    rcases hm : mtch r pre (c :: rest) with _ | ⟨⟨p1, p2⟩, l⟩
    · rw [searchFrom_step r pre c rest hm] at h
      obtain ⟨u, v, huv, hne⟩ := ih (c :: pre) h
      refine ⟨c :: u, v, by simp [huv], ?_⟩
      have : (c :: u).reverse ++ pre = u.reverse ++ (c :: pre) := by
        simp [List.append_assoc]
      rwa [this]
    · exact ⟨[], c :: rest, rfl, by simp [hm]⟩

theorem takeWhile_length_le (p : Char → Bool) :
    ∀ s : List Char, (List.takeWhile p s).length ≤ s.length := by
  intro s
  induction s with
  | nil => simp
  | cons c rest ih =>
    by_cases hp : p c
    · simpa [List.takeWhile_cons, hp] using ih
    · simp [List.takeWhile_cons, hp]

/-- The matcher never shrinks the left context. -/
theorem mtch_length_le :
    ∀ (r : Regex) (ctx s : List Char) (pr : List Char × List Char),
      pr ∈ mtch r ctx s → ctx.length ≤ pr.1.length := by
  intro r
  induction r with
  | eps =>
    intro ctx s pr h
    simp only [mtch, List.mem_singleton] at h
    simp [h]
  | cls p =>
    intro ctx s pr h
    cases s with
    | nil => simp [mtch] at h
    | cons c rest =>
      by_cases hp : p c
      · simp only [mtch, if_pos hp, List.mem_singleton] at h
        simp [h]
      · simp [mtch, if_neg hp] at h
  | seq a b iha ihb =>
    intro ctx s pr h
    simp only [mtch, List.mem_flatMap] at h
    obtain ⟨q, hq, hpr⟩ := h
    exact Nat.le_trans (iha ctx s q hq) (ihb q.1 q.2 pr hpr)
  | alt a b iha ihb =>
    intro ctx s pr h
    simp only [mtch, List.mem_append] at h
    cases h with
    | inl h => exact iha ctx s pr h
    | inr h => exact ihb ctx s pr h
  | plusCls p =>
    intro ctx s pr h
    simp only [mtch, List.mem_map, List.mem_range] at h
    obtain ⟨i, _, hpr⟩ := h
    rw [← hpr]
    simp
  | lookahead a ih =>
    intro ctx s pr h
    by_cases he : (mtch a ctx s).isEmpty
    · simp [mtch, he] at h
    · simp only [mtch, he, Bool.false_eq_true, if_false, List.mem_singleton] at h
      simp [h]
  | lookbehind ps =>
    intro ctx s pr h
    by_cases hc : checkCtxRev ps.reverse ctx
    · simp only [mtch, if_pos hc, List.mem_singleton] at h
      simp [h]
    · simp [mtch, hc] at h

/-- A regex that syntactically consumes strictly grows the left
context. -/
theorem mtch_length_lt :
    ∀ (r : Regex), consumes r = true →
      ∀ (ctx s : List Char) (pr : List Char × List Char),
        pr ∈ mtch r ctx s → ctx.length < pr.1.length := by
  intro r
  induction r with
  | eps => intro hc; simp [consumes] at hc
  | cls p =>
    intro _ ctx s pr h
    cases s with
    | nil => simp [mtch] at h
    | cons c rest =>
      by_cases hp : p c
      · simp only [mtch, if_pos hp, List.mem_singleton] at h
        simp [h]
      · simp [mtch, if_neg hp] at h
  | seq a b iha ihb =>
    intro hc ctx s pr h
    simp only [mtch, List.mem_flatMap] at h
    obtain ⟨q, hq, hpr⟩ := h
    simp only [consumes, Bool.or_eq_true] at hc
    cases hc with
    | inl ha => exact Nat.lt_of_lt_of_le (iha ha ctx s q hq) (mtch_length_le b q.1 q.2 pr hpr)
    | inr hb => exact Nat.lt_of_le_of_lt (mtch_length_le a ctx s q hq) (ihb hb q.1 q.2 pr hpr)
  | alt a b iha ihb =>
    intro hc ctx s pr h
    simp only [consumes, Bool.and_eq_true] at hc
    simp only [mtch, List.mem_append] at h
    cases h with
    | inl h => exact iha hc.1 ctx s pr h
    | inr h => exact ihb hc.2 ctx s pr h
  | plusCls p =>
    intro _ ctx s pr h
    simp only [mtch, List.mem_map, List.mem_range] at h
    obtain ⟨i, hi, hpr⟩ := h
    rw [← hpr]
    simp only [List.length_append, List.length_reverse, List.length_take]
    have hk2 : (List.takeWhile p s).length ≤ s.length := takeWhile_length_le p s
    omega
  | lookahead a ih => intro hc; simp [consumes] at hc
  | lookbehind ps => intro hc; simp [consumes] at hc

/-- For a consuming regex, a successful search returns a nonempty
matched substring. -/
theorem searchFrom_some_ne_nil (r : Regex) (hc : consumes r = true) :
    ∀ (s pre m : List Char), searchFrom r pre s = some m → m ≠ [] := by
  intro s
  induction s with
  | nil =>
    intro pre m h
    rcases hm : mtch r pre [] with _ | ⟨⟨p1, p2⟩, l⟩
    · rw [searchFrom_nil_none r pre hm] at h
      simp at h
    · rw [searchFrom_pos r pre [] p1 p2 l hm] at h
      have hmem : (p1, p2) ∈ mtch r pre [] := by rw [hm]; exact List.mem_cons_self _ _
      have hlt : pre.length < p1.length := mtch_length_lt r hc pre [] (p1, p2) hmem
      have : m.length ≠ 0 := by
        rw [← Option.some_inj.mp h]
        simp only [List.length_reverse, List.length_take]
        omega
      intro hnil
      rw [hnil] at this
      exact this rfl
  | cons c rest ih =>
    intro pre m h
    rcases hm : mtch r pre (c :: rest) with _ | ⟨⟨p1, p2⟩, l⟩
    · rw [searchFrom_step r pre c rest hm] at h
      exact ih (c :: pre) m h
    · rw [searchFrom_pos r pre (c :: rest) p1 p2 l hm] at h
      have hmem : (p1, p2) ∈ mtch r pre (c :: rest) := by
        rw [hm]; exact List.mem_cons_self _ _
      have hlt : pre.length < p1.length := mtch_length_lt r hc pre (c :: rest) (p1, p2) hmem
      have : m.length ≠ 0 := by
        rw [← Option.some_inj.mp h]
        simp only [List.length_reverse, List.length_take]
        omega
      intro hnil
      rw [hnil] at this
      exact this rfl

/-- When every rule of a table passes ruleOK, a category produced by the
scan is never the empty string. -/
theorem find_series_ne_empty (t : String) :
    ∀ (ps : List (CompiledPattern × String)),
      (∀ e ∈ ps, ruleOK e = true) →
      ∀ v, find_series ps t = some v → v ≠ "" := by
  intro ps
  induction ps with
  | nil => intro _ v h; simp [find_series] at h
  | cons e rest ih =>
    intro hall v h
    obtain ⟨cp, mt⟩ := e
    have hok : ruleOK (cp, mt) = true := hall (cp, mt) (List.mem_cons_self _ _)
    rcases hr : reSearch cp t with _ | m
    · rw [find_series_cons_none cp mt rest t hr] at h
      exact ih (fun e he => hall e (List.mem_cons_of_mem _ he)) v h
    · rw [find_series_cons_some cp mt rest t m hr] at h
      have hv : v = ruleValue cp mt m := (Option.some_inj.mp h).symm
      by_cases hfm : mt = "full_match"
      · have hcons : consumes cp.re = true := by
          simpa [ruleOK, hfm] using hok
        have : ∃ l, searchFrom cp.re [] t.data = some l ∧ String.mk l = m := by
          simpa [reSearch, Option.map_eq_some'] using hr
        obtain ⟨l, hl, hlm⟩ := this
        have hlne : l ≠ [] := searchFrom_some_ne_nil cp.re hcons t.data [] l hl
        rw [hv]
        simp only [ruleValue, if_pos hfm]
        intro hme
        apply hlne
        have : (String.mk l).data = ("" : String).data := by rw [hlm, hme]
        simpa using this
      · by_cases hst : mt = "static"
        · have hpat : cp.pattern ≠ "" := by
            have := hok
            simp only [ruleOK, if_neg hfm, if_pos hst] at this
            exact of_decide_eq_true this
          rw [hv]
          simpa [ruleValue, hfm, hst] using hpat
        · have hmt : mt ≠ "" := by
            have := hok
            simp only [ruleOK, if_neg hfm, if_neg hst] at this
            exact of_decide_eq_true this
          rw [hv]
          simpa [ruleValue, hfm, hst] using hmt

/-- Every rule of the actual table passes the side condition. -/
theorem patterns_ruleOK : ∀ e ∈ patterns, ruleOK e = true := by decide

/-- Claim C4: the identifier jja20-3 is classified by the full-match rule
jja followed by digits and dashes, and the category is the exact matched
substring jja20-3, trailing digits and hyphen included. -/
theorem c4_full_match_exact_substring :
    get_model_series "jja20-3" = some "jja20-3" ∧
    series_or_uncategorized "jja20-3" = "jja20-3" := by
  constructor <;> decide

/-- Claim C5: the identifier rz_dj_0420 is classified by the static rz_dj
rule, whose match_type in the table is static, and the category is the
rule's own pattern label rz_dj, not a substring extracted from the
input. -/
theorem c5_static_returns_rule_label :
    get_model_series "rz_dj_0420" = some "rz_dj" ∧
    (patterns.get ⟨19, by decide⟩).1.pattern = "rz_dj" ∧
    (patterns.get ⟨19, by decide⟩).2 = "static" ∧
    series_or_uncategorized "rz_dj_0420" = "rz_dj" := by
  refine ⟨by decide, by decide, by decide, by decide⟩

/-- Claim C10: on the empty string no pattern of the table is found, so
get_model_series falls through the whole rule list and returns none, and
the category assigned by the grouping step is the sentinel
Uncategorized. -/
theorem c10_empty_string_uncategorized :
    (∀ e ∈ patterns, reSearch e.1 "" = none) ∧
    get_model_series "" = none ∧
    series_or_uncategorized "" = "Uncategorized" := by
  refine ⟨by decide, by decide, by decide⟩

/-- Claim C2 (code behavior at the failing input): the generic xm_jj rule
sits at index 1 of the table, ahead of the date-qualified Y-series rule at
index 3, and every string the Y-series pattern finds also contains xm_jj;
so on xm_jj_Y12_0726 the code returns xm_jj, not jj_Y, even though the
Y-series pattern does occur in the input. -/
theorem c2_y_rule_shadowed_by_generic :
    get_model_series "xm_jj_Y12_0726" = some "xm_jj" ∧
    (reSearch (patterns.get ⟨3, by decide⟩).1 "xm_jj_Y12_0726" = some "xm_jj_Y12_0726") ∧
    (patterns.get ⟨3, by decide⟩).2 = "jj_Y" ∧
    series_or_uncategorized "xm_jj_Y12_0726" ≠ "jj_Y" := by
  refine ⟨by decide, by decide, by decide, by decide⟩

theorem reSearch_isSome (cp : CompiledPattern) (s : String) :
    (reSearch cp s).isSome = (searchFrom cp.re [] s.data).isSome := by
  rcases hx : searchFrom cp.re [] s.data with _ | l <;> simp [reSearch, hx]

/-- Claim C1: first-match-wins.  If rule i of the table matches the input,
some later rule j also matches, and no rule before i matches, then
get_model_series returns rule i's derived category; it does not return
rule j's category whenever that differs from rule i's; and the result is
already determined by the table truncated just after rule i, so the rules
after the first matching one cannot influence it. -/
theorem c1_first_match_wins (t : String) (i j : Nat) (mi : String)
    (hi : i < patterns.length) (hj : j < patterns.length) (hij : i < j)
    (hmi : reSearch (patterns.get ⟨i, hi⟩).1 t = some mi)
    (hmj : (reSearch (patterns.get ⟨j, hj⟩).1 t).isSome = true)
    (hfirst : ∀ (k : Nat) (hk : k < i),
      reSearch (patterns.get ⟨k, Nat.lt_trans hk hi⟩).1 t = none) :
    get_model_series t =
      some (ruleValue (patterns.get ⟨i, hi⟩).1 (patterns.get ⟨i, hi⟩).2 mi) ∧
    (ruleValue (patterns.get ⟨j, hj⟩).1 (patterns.get ⟨j, hj⟩).2
        ((reSearch (patterns.get ⟨j, hj⟩).1 t).getD "") ≠
      ruleValue (patterns.get ⟨i, hi⟩).1 (patterns.get ⟨i, hi⟩).2 mi →
      get_model_series t ≠
        some (ruleValue (patterns.get ⟨j, hj⟩).1 (patterns.get ⟨j, hj⟩).2
          ((reSearch (patterns.get ⟨j, hj⟩).1 t).getD ""))) ∧
    get_model_series t = find_series (patterns.take (i + 1)) t := by
  have h1 := find_series_eq_first t patterns i hi mi hmi hfirst
  refine ⟨h1, ?_, ?_⟩
  · intro hne hcontra
    have : get_model_series t = some (ruleValue (patterns.get ⟨i, hi⟩).1
        (patterns.get ⟨i, hi⟩).2 mi) := h1
    rw [hcontra] at this
    exact hne (Option.some_inj.mp this)
  · exact find_series_take_first t patterns i hi (by rw [hmi]; rfl) hfirst

theorem c1_first_match_wins_witness :
    (1 : Nat) < 3 ∧ get_model_series "xm_jj_Y12_0726" = some "xm_jj" :=
  ⟨by decide,
    (c1_first_match_wins "xm_jj_Y12_0726" 1 3 "xm_jj" (by decide) (by decide)
      (by decide) (by decide) (by decide) (by decide)).1⟩

/-- Claim C3: when no pattern of the table is found in the input,
get_model_series returns none and the grouping step assigns exactly the
sentinel Uncategorized, never the empty string. -/
theorem c3_no_match_yields_uncategorized (t : String)
    (h : ∀ e ∈ patterns, reSearch e.1 t = none) :
    get_model_series t = none ∧ series_or_uncategorized t = "Uncategorized" := by
  have h1 : get_model_series t = none := find_series_none_of_all t patterns h
  exact ⟨h1, by simp [series_or_uncategorized, h1]⟩

theorem c3_no_match_yields_uncategorized_witness :
    get_model_series "totally_unrelated_name" = none ∧
    series_or_uncategorized "totally_unrelated_name" = "Uncategorized" :=
  c3_no_match_yields_uncategorized "totally_unrelated_name" (by decide)

/-- Claim C6: whenever the first matching rule of the table has
match_type static, the returned category is the raw regex source text
stored in the pattern field of that rule (for the final bc rule this is
the string bc(?=_) with its lookahead, not a plain label). -/
theorem c6_static_returns_pattern_source (t : String) (i : Nat)
    (hi : i < patterns.length) (m : String)
    (hm : reSearch (patterns.get ⟨i, hi⟩).1 t = some m)
    (hstatic : (patterns.get ⟨i, hi⟩).2 = "static")
    (hfirst : ∀ (k : Nat) (hk : k < i),
      reSearch (patterns.get ⟨k, Nat.lt_trans hk hi⟩).1 t = none) :
    get_model_series t = some ((patterns.get ⟨i, hi⟩).1.pattern) := by
  have h1 := find_series_eq_first t patterns i hi m hm hfirst
  show find_series patterns t = _
  rw [h1, hstatic]
  rfl

theorem c6_static_returns_pattern_source_witness :
    (patterns.get ⟨27, by decide⟩).2 = "static" ∧
    get_model_series "bc_0420" = some "bc(?=_)" :=
  ⟨by decide,
    c6_static_returns_pattern_source "bc_0420" 27 (by decide) "bc" (by decide)
      (by decide) (by decide)⟩

/-- Claim C7: patterns are searched, not anchored.  A pattern search
succeeds exactly when the pattern matches at some position inside the
text (any split into a skipped prefix u and a suffix v where the match
starts), and prepending an arbitrary prefix to a text in which the
pattern is found never makes the search fail. -/
theorem c7_search_not_anchored (cp : CompiledPattern) (s : String) :
    ((reSearch cp s).isSome = true ↔
      ∃ u v, s.data = u ++ v ∧ mtch cp.re u.reverse v ≠ []) ∧
    (∀ p : String, (reSearch cp s).isSome = true →
      (reSearch cp (p ++ s)).isSome = true) := by
  constructor
  · constructor
    · intro h
      rw [reSearch_isSome] at h
      obtain ⟨u, v, huv, hne⟩ := searchFrom_isSome_split cp.re s.data [] h
      exact ⟨u, v, huv, by simpa using hne⟩
    · rintro ⟨u, v, huv, hne⟩
      rw [reSearch_isSome, huv]
      exact searchFrom_isSome_append cp.re u v [] (by simpa using hne)
  · intro p h
    rw [reSearch_isSome] at h ⊢
    obtain ⟨u, v, huv, hne⟩ := searchFrom_isSome_split cp.re s.data [] h
    have hdata : (p ++ s).data = (p.data ++ u) ++ v := by
      rw [String.data_append, huv, List.append_assoc]
    rw [hdata]
    apply searchFrom_isSome_append
    rw [List.append_nil, List.reverse_append]
    have hne' : mtch cp.re u.reverse v ≠ [] := by simpa using hne
    obtain ⟨q, hq⟩ := List.exists_mem_of_ne_nil _ hne'
    exact List.ne_nil_of_mem
      (mtch_ctx_extend p.data.reverse cp.re u.reverse v q hq)

theorem c7_search_not_anchored_witness :
    (reSearch ⟨"xm_jj", rlit "xm_jj"⟩ "xm_jj_foo").isSome = true ∧
    (reSearch ⟨"xm_jj", rlit "xm_jj"⟩ ("arbitrary-" ++ "xm_jj_foo")).isSome = true :=
  ⟨by decide,
    (c7_search_not_anchored ⟨"xm_jj", rlit "xm_jj"⟩ "xm_jj_foo").2
      "arbitrary-" (by decide)⟩

/-- Claim C8: totality.  On every input string the classifier produces a
well-defined outcome: either no rule matched, which is the valid
Uncategorized outcome, or some rule produced a nonempty category string;
there is no error value and no empty category. -/
theorem c8_totality (t : String) :
    (get_model_series t = none ∧ series_or_uncategorized t = "Uncategorized") ∨
    (∃ s, get_model_series t = some s ∧ s ≠ "" ∧ series_or_uncategorized t = s) := by
  rcases h : get_model_series t with _ | s
  · exact Or.inl ⟨rfl, by simp [series_or_uncategorized, h]⟩
  · have hne : s ≠ "" := find_series_ne_empty t patterns patterns_ruleOK s h
    exact Or.inr ⟨s, rfl, hne, by simp [series_or_uncategorized, h, hne]⟩

/-- Claim C9: determinism.  Classification is a pure function of the
input text: two calls on equal inputs give identical series and
identical categories. -/
theorem c9_deterministic (t1 t2 : String) (h : t1 = t2) :
    get_model_series t1 = get_model_series t2 ∧
    series_or_uncategorized t1 = series_or_uncategorized t2 := by
  subst h
  exact ⟨rfl, rfl⟩

theorem c9_deterministic_witness :
    get_model_series "jja20-3" = get_model_series "jja20-3" ∧
    series_or_uncategorized "jja20-3" = series_or_uncategorized "jja20-3" :=
  c9_deterministic "jja20-3" "jja20-3" rfl

end GroupTasks
